import Mathlib

/-!
Shallow embedding of the Inofor banded linear-algebra core
(`src/Matrix/src/Matrix.cpp`, declarations in `src/inc/1.0/Matrix.h`).

Modelling conventions:
* C++ `double` values are modelled as exact rationals `ℚ`; the
  floating-point operations `+`, `-`, `*`, `/` and `fabs` become the
  exact rational operations.
* C++ `int` sizes and indices that may be negative at an interface
  (`Vector` sizes, `len(dims)`) are modelled as `ℤ`; loop counters and
  matrix dimensions, nonnegative in every reachable state, are `ℕ`.
* Uninitialised heap cells (a `new double[n]` without a following
  `memset`) are modelled by the marker value `uninit` (numerically `0`);
  no verified claim reads an uninitialised cell.
* Exceptions become `Except Err`; a C++ `throw` placed before any write
  becomes an `Except.error` returned before any new state is built.
-/

namespace Ino

/-- Error kinds from `Exceptions.h` used by the numeric core. -/
inductive Err where
  | illegalArgument
  | indexOutOfBounds
deriving DecidableEq, Repr

/-- Marker for an uninitialised buffer cell (contents unspecified in the
source; numerically `0` here, and no verified claim depends on it). -/
def uninit : ℚ := 0

/-- Growable vector of doubles (`class Vector`): backing buffer `va` of
`cap = va.length` cells, of which the first `sz` are the logical entries.
The source keeps `cap` as a separate `int` field; in every reachable
state it equals the allocated buffer length, so `cap` is derived here. -/
structure Vector where
  va : List ℚ
  sz : ℤ
deriving DecidableEq, Repr

/-- Capacity: the length of the backing buffer. -/
def Vector.cap (v : Vector) : ℤ := (v.va.length : ℤ)

/-- Class invariant `0 ≤ size ≤ capacity`. -/
def Vector.Inv (v : Vector) : Prop := 0 ≤ v.sz ∧ v.sz ≤ v.cap

instance (v : Vector) : Decidable v.Inv := by
  unfold Vector.Inv; infer_instance

/-- Transcription of `Vector::setSize(int newSz, bool preserve, bool
zeroInit)`.  Fast path: when `cap/2 ≤ newSz ≤ cap` the buffer is kept and
only the logical size changes, zero-filling `[sz, newSz)` when growing
with `zeroInit`.  Otherwise the buffer is reallocated to exactly `newSz`
cells, preserving the leading `min (newSz, sz)` entries when `preserve`
(the source condition is `preserve && va`; `va` is non-null for every
publicly constructed vector). -/
def Vector.setSize (v : Vector) (newSz : ℤ) (preserve zeroInit : Bool) :
    Except Err Vector :=
  if newSz < 0 then .error .illegalArgument
  else if v.cap / 2 ≤ newSz ∧ newSz ≤ v.cap then
    let va' := if zeroInit ∧ v.sz < newSz then
        v.va.take v.sz.toNat ++ List.replicate (newSz - v.sz).toNat 0 ++
          v.va.drop newSz.toNat
      else v.va
    .ok ⟨va', newSz⟩
  else if preserve then
    let va' := if newSz ≤ v.sz then v.va.take newSz.toNat
      else v.va.take v.sz.toNat ++
        (if zeroInit then List.replicate (newSz - v.sz).toNat 0
         else List.replicate (newSz - v.sz).toNat uninit)
    .ok ⟨va', newSz⟩
  else
    .ok ⟨if zeroInit then List.replicate newSz.toNat 0
         else List.replicate newSz.toNat uninit, newSz⟩

/-- Transcription of `Vector::Vector(int vSize, bool zeroInit)`. -/
def Vector.make (vSize : ℤ) (zeroInit : Bool) : Except Err Vector :=
  if vSize < 0 then .error .illegalArgument
  else .ok ⟨if zeroInit then List.replicate vSize.toNat 0
            else List.replicate vSize.toNat uninit, vSize⟩

/-- Transcription of the copy constructor `Vector::Vector(const Vector&)`:
the new buffer has exactly `cp.sz` cells, all copied from `cp`. -/
def Vector.copy (cp : Vector) : Vector := ⟨cp.va.take cp.sz.toNat, cp.sz⟩

/-- Transcription of `Vector::operator=`: `setSize(src.sz, false, false)`
followed by a copy of the `sz` logical entries. -/
def Vector.assign (v src : Vector) : Except Err Vector :=
  match v.setSize src.sz false false with
  | .error e => .error e
  | .ok u => .ok ⟨src.va.take u.sz.toNat ++ u.va.drop u.sz.toNat, u.sz⟩

/-- Transcription of `Vector::clear`: zero the `sz` logical entries. -/
def Vector.clear (v : Vector) : Vector :=
  ⟨List.replicate v.sz.toNat 0 ++ v.va.drop v.sz.toNat, v.sz⟩

/-- Transcription of the checked read `Vector::operator[] const`. -/
def Vector.get (v : Vector) (idx : ℤ) : Except Err ℚ :=
  if idx < 0 ∨ v.sz ≤ idx then .error .indexOutOfBounds
  else .ok (v.va.getD idx.toNat 0)

/-- Transcription of a write through the checked `Vector::operator[]`. -/
def Vector.set (v : Vector) (idx : ℤ) (x : ℚ) : Except Err Vector :=
  if idx < 0 ∨ v.sz ≤ idx then .error .indexOutOfBounds
  else .ok ⟨v.va.set idx.toNat x, v.sz⟩

/-- Transcription of `Vector::operator+`: a fresh vector of the common
size (built uninitialised and then filled entirely). -/
def Vector.add (v w : Vector) : Except Err Vector :=
  if v.sz ≠ w.sz then .error .illegalArgument
  else .ok ⟨(List.range v.sz.toNat).map
      (fun i => v.va.getD i 0 + w.va.getD i 0), v.sz⟩

/-- Transcription of `Vector::operator+=`. -/
def Vector.addAssign (v w : Vector) : Except Err Vector :=
  if v.sz ≠ w.sz then .error .illegalArgument
  else .ok ⟨(List.range v.sz.toNat).map
      (fun i => v.va.getD i 0 + w.va.getD i 0) ++ v.va.drop v.sz.toNat, v.sz⟩

/-- Transcription of `Vector::operator-`. -/
def Vector.sub (v w : Vector) : Except Err Vector :=
  if v.sz ≠ w.sz then .error .illegalArgument
  else .ok ⟨(List.range v.sz.toNat).map
      (fun i => v.va.getD i 0 - w.va.getD i 0), v.sz⟩

/-- Transcription of `Vector::operator-=`. -/
def Vector.subAssign (v w : Vector) : Except Err Vector :=
  if v.sz ≠ w.sz then .error .illegalArgument
  else .ok ⟨(List.range v.sz.toNat).map
      (fun i => v.va.getD i 0 - w.va.getD i 0) ++ v.va.drop v.sz.toNat, v.sz⟩

/-- Transcription of `Vector::operator*(double)`. -/
def Vector.smul (v : Vector) (fact : ℚ) : Vector :=
  ⟨(List.range v.sz.toNat).map (fun i => v.va.getD i 0 * fact), v.sz⟩

/-- Transcription of `Vector::operator*=(double)`. -/
def Vector.smulAssign (v : Vector) (fact : ℚ) : Vector :=
  ⟨(List.range v.sz.toNat).map (fun i => v.va.getD i 0 * fact) ++
    v.va.drop v.sz.toNat, v.sz⟩

/-- Transcription of the dot product `Vector::operator*(const Vector&)`. -/
def Vector.dot (v w : Vector) : Except Err ℚ :=
  if v.sz ≠ w.sz then .error .illegalArgument
  else .ok ((List.range v.sz.toNat).foldl
      (fun acc i => acc + v.va.getD i 0 * w.va.getD i 0) 0)

/-- Accumulator of `Vector::len(int dims)`: the sum of squares of the
first `dims` logical entries, guarded by the source's `dims > sz` check.
The source returns the square root of this accumulator; the square root
itself is applied in `Vector.len` below. -/
def Vector.len2 (v : Vector) (dims : ℤ) : Except Err ℚ :=
  if v.sz < dims then .error .illegalArgument
  else .ok ((List.range dims.toNat).foldl
      (fun acc i => acc + v.va.getD i 0 * v.va.getD i 0) 0)

/-- Transcription of `Vector::len(int dims)`: `sqrt` of the accumulated
sum of squares. -/
noncomputable def Vector.len (v : Vector) (dims : ℤ) : Except Err ℝ :=
  (v.len2 dims).map fun q => Real.sqrt (q : ℝ)

/-! Equation lemmas for the three paths of `Vector.setSize`. -/

lemma Vector.setSize_fast (v : Vector) (n : ℤ) (p z : Bool)
    (h0 : ¬ n < 0) (hc : v.cap / 2 ≤ n ∧ n ≤ v.cap) :
    v.setSize n p z = .ok ⟨if z ∧ v.sz < n then
        v.va.take v.sz.toNat ++ List.replicate (n - v.sz).toNat 0 ++
          v.va.drop n.toNat
      else v.va, n⟩ := by
  unfold Vector.setSize
  rw [if_neg h0, if_pos hc]

lemma Vector.setSize_realloc_preserve (v : Vector) (n : ℤ) (z : Bool)
    (h0 : ¬ n < 0) (hc : ¬ (v.cap / 2 ≤ n ∧ n ≤ v.cap)) :
    v.setSize n true z = .ok ⟨if n ≤ v.sz then v.va.take n.toNat
      else v.va.take v.sz.toNat ++
        (if z then List.replicate (n - v.sz).toNat 0
         else List.replicate (n - v.sz).toNat uninit), n⟩ := by
  unfold Vector.setSize
  rw [if_neg h0, if_neg hc, if_pos rfl]

lemma Vector.setSize_realloc_new (v : Vector) (n : ℤ) (z : Bool)
    (h0 : ¬ n < 0) (hc : ¬ (v.cap / 2 ≤ n ∧ n ≤ v.cap)) :
    v.setSize n false z = .ok ⟨if z then List.replicate n.toNat 0
      else List.replicate n.toNat uninit, n⟩ := by
  unfold Vector.setSize
  rw [if_neg h0, if_neg hc]
  simp

lemma Vector.setSize_neg (v : Vector) (n : ℤ) (p z : Bool) (h0 : n < 0) :
    v.setSize n p z = .error .illegalArgument := by
  unfold Vector.setSize
  rw [if_pos h0]

/-- Size and invariant facts about any successful `setSize`. -/
lemma Vector.setSize_ok_spec (v : Vector) (n : ℤ) (p z : Bool) (u : Vector)
    (hv : v.Inv) (h : v.setSize n p z = .ok u) :
    u.sz = n ∧ 0 ≤ n ∧ u.Inv := by
  obtain ⟨hs0, hsc⟩ := hv
  have hcap : 0 ≤ v.cap := Int.natCast_nonneg _
  have hcap' : v.cap = (v.va.length : ℤ) := rfl
  by_cases h0 : n < 0
  · rw [Vector.setSize_neg v n p z h0] at h
    exact absurd h (by simp)
  by_cases hc : v.cap / 2 ≤ n ∧ n ≤ v.cap
  · rw [Vector.setSize_fast v n p z h0 hc] at h
    injection h with h
    subst h
    refine ⟨rfl, by omega, show (0:ℤ) ≤ n by omega, ?_⟩
    show (n : ℤ) ≤ ((if z ∧ v.sz < n then
        v.va.take v.sz.toNat ++ List.replicate (n - v.sz).toNat 0 ++
          v.va.drop n.toNat
      else v.va).length : ℤ)
    split
    · simp only [List.length_append, List.length_take, List.length_replicate,
        List.length_drop]
      omega
    · omega
  · cases p
    · rw [Vector.setSize_realloc_new v n z h0 hc] at h
      injection h with h
      subst h
      refine ⟨rfl, by omega, show (0:ℤ) ≤ n by omega, ?_⟩
      show (n : ℤ) ≤ ((if z then List.replicate n.toNat (0:ℚ)
          else List.replicate n.toNat uninit).length : ℤ)
      split <;> simp only [List.length_replicate] <;> omega
    · rw [Vector.setSize_realloc_preserve v n z h0 hc] at h
      injection h with h
      subst h
      refine ⟨rfl, by omega, show (0:ℤ) ≤ n by omega, ?_⟩
      show (n : ℤ) ≤ ((if n ≤ v.sz then v.va.take n.toNat
        else v.va.take v.sz.toNat ++
          (if z then List.replicate (n - v.sz).toNat (0:ℚ)
           else List.replicate (n - v.sz).toNat uninit)).length : ℤ)
      split
      · simp only [List.length_take]
        omega
      · split <;>
          simp only [List.length_append, List.length_take,
            List.length_replicate] <;> omega

/-! Buffer-indexing helper lemmas. -/

lemma getD_zfill (va tail : List ℚ) (s n i : ℕ) (hs : s ≤ va.length) :
    (va.take s ++ List.replicate n (0:ℚ) ++ tail).getD i 0 =
      if i < s then va.getD i 0
      else if i < s + n then 0
      else tail.getD (i - (s + n)) 0 := by
  simp only [List.getD_eq_getElem?_getD, List.getElem?_append,
    List.length_append, List.length_take, List.length_replicate,
    List.getElem?_take, List.getElem?_replicate, Nat.min_eq_left hs]
  split_ifs <;>
    first | rfl | omega | simp | (exfalso; omega) | (congr 1; omega)

lemma getD_takefill (va : List ℚ) (s n i : ℕ) (hs : s ≤ va.length) :
    (va.take s ++ List.replicate n (0:ℚ)).getD i 0 =
      if i < s then va.getD i 0
      else if i < s + n then 0 else 0 := by
  simp only [List.getD_eq_getElem?_getD, List.getElem?_append,
    List.length_append, List.length_take, List.length_replicate,
    List.getElem?_take, List.getElem?_replicate, Nat.min_eq_left hs]
  split_ifs <;>
    first | rfl | omega | simp | (exfalso; omega) | (congr 1; omega)

lemma getD_take (va : List ℚ) (s i : ℕ) (hi : i < s) :
    (va.take s).getD i 0 = va.getD i 0 := by
  simp only [List.getD_eq_getElem?_getD, List.getElem?_take, if_pos hi]

lemma getD_drop (va : List ℚ) (m k : ℕ) :
    (va.drop m).getD k 0 = va.getD (m + k) 0 := by
  simp only [List.getD_eq_getElem?_getD, List.getElem?_drop]

/-- C5: after `setSize(newSize, preserve := true, zeroInit := true)` on a
valid vector, the entries below `min newSize s` are unchanged, the
entries in `[s, newSize)` are exactly zero, and the size is `newSize`. -/
theorem C5_setSize_preserve_zeroInit (v : Vector) (hv : v.Inv) (newSize : ℤ)
    (h0 : 0 ≤ newSize) :
    ∃ u, v.setSize newSize true true = Except.ok u ∧ u.sz = newSize ∧
      (∀ i : ℕ, (i : ℤ) < newSize → (i : ℤ) < v.sz →
        u.va.getD i 0 = v.va.getD i 0) ∧
      (∀ i : ℕ, v.sz ≤ (i : ℤ) → (i : ℤ) < newSize → u.va.getD i 0 = 0) := by
  obtain ⟨hs0, hsc⟩ := hv
  have hcap' : v.cap = (v.va.length : ℤ) := rfl
  by_cases hc : v.cap / 2 ≤ newSize ∧ newSize ≤ v.cap
  · refine ⟨_, Vector.setSize_fast v newSize true true (by omega) hc, rfl,
      ?_, ?_⟩
    · intro i hi hiv
      by_cases hgrow : v.sz < newSize
      · rw [if_pos ⟨rfl, hgrow⟩, getD_zfill _ _ _ _ _ (by omega),
          if_pos (by omega)]
      · rw [if_neg (by simp [hgrow])]
    · intro i hvi hi
      have hgrow : v.sz < newSize := by omega
      rw [if_pos ⟨rfl, hgrow⟩, getD_zfill _ _ _ _ _ (by omega),
        if_neg (by omega), if_pos (by omega)]
  · refine ⟨_, Vector.setSize_realloc_preserve v newSize true (by omega) hc,
      rfl, ?_, ?_⟩
    · intro i hi hiv
      by_cases hle : newSize ≤ v.sz
      · rw [if_pos hle, getD_take _ _ _ (by omega)]
      · rw [if_neg hle, if_pos rfl, getD_takefill _ _ _ _ (by omega),
          if_pos (by omega)]
    · intro i hvi hi
      rw [if_neg (by omega), if_pos rfl, getD_takefill _ _ _ _ (by omega),
        if_neg (by omega), if_pos (by omega)]

/-- Witness for C5 on the vector `[1, 2, 3]` resized to 5. -/
theorem C5_setSize_preserve_zeroInit_witness :
    ∃ u, Vector.setSize ⟨[1, 2, 3], 3⟩ 5 true true = Except.ok u ∧
      u.sz = 5 ∧
      (∀ i : ℕ, (i : ℤ) < 5 → (i : ℤ) < (Vector.mk [1, 2, 3] 3).sz →
        u.va.getD i 0 = (Vector.mk [1, 2, 3] 3).va.getD i 0) ∧
      (∀ i : ℕ, (Vector.mk [1, 2, 3] 3).sz ≤ (i : ℤ) → (i : ℤ) < 5 →
        u.va.getD i 0 = 0) :=
  C5_setSize_preserve_zeroInit ⟨[1, 2, 3], 3⟩ (by decide) 5 (by decide)

/-- C6 (amended): when the requested size lies in the hysteresis window
`[cap/2, cap]` (integer division, as in the source), `setSize` keeps the
capacity and the backing buffer, only changing the logical size and
zero-filling the newly exposed tail `[sz, newSize)` when growing with
`zeroInit`; for a nonnegative request outside the window the buffer is
reallocated and the capacity becomes exactly `newSize`; a negative
request raises invalid-argument. -/
theorem C6_setSize_hysteresis (v : Vector) (hv : v.Inv) (newSize : ℤ)
    (p z : Bool) :
    (v.cap / 2 ≤ newSize → newSize ≤ v.cap →
      ∃ u, v.setSize newSize p z = Except.ok u ∧ u.cap = v.cap ∧
        u.sz = newSize ∧
        (z = false → u.va = v.va) ∧
        (∀ i : ℕ, (i : ℤ) < v.sz → u.va.getD i 0 = v.va.getD i 0) ∧
        (∀ i : ℕ, newSize ≤ (i : ℤ) → u.va.getD i 0 = v.va.getD i 0) ∧
        (z = true → ∀ i : ℕ, v.sz ≤ (i : ℤ) → (i : ℤ) < newSize →
          u.va.getD i 0 = 0)) ∧
    (0 ≤ newSize → (newSize < v.cap / 2 ∨ v.cap < newSize) →
      ∃ u, v.setSize newSize p z = Except.ok u ∧ u.cap = newSize) ∧
    (newSize < 0 →
      v.setSize newSize p z = Except.error Err.illegalArgument) := by
  obtain ⟨hs0, hsc⟩ := hv
  have hcap0 : 0 ≤ v.cap := Int.natCast_nonneg _
  have hcap' : v.cap = (v.va.length : ℤ) := rfl
  refine ⟨?_, ?_, fun h0 => Vector.setSize_neg v newSize p z h0⟩
  · intro hlo hhi
    refine ⟨_, Vector.setSize_fast v newSize p z (by omega) ⟨hlo, hhi⟩,
      ?_, rfl, ?_, ?_, ?_, ?_⟩
    · show ((if z ∧ v.sz < newSize then _ else v.va).length : ℤ) = v.cap
      split
      · simp only [List.length_append, List.length_take,
          List.length_replicate, List.length_drop]
        omega
      · rfl
    · rintro rfl
      rw [if_neg (by simp)]
    · intro i hi
      by_cases hgrow : z ∧ v.sz < newSize
      · rw [if_pos hgrow, getD_zfill _ _ _ _ _ (by omega),
          if_pos (by omega)]
      · rw [if_neg hgrow]
    · intro i hi
      by_cases hgrow : z ∧ v.sz < newSize
      · rw [if_pos hgrow, getD_zfill _ _ _ _ _ (by omega),
          if_neg (by omega), if_neg (by omega), getD_drop]
        congr 1
        omega
      · rw [if_neg hgrow]
    · rintro rfl i hvi hi
      rw [if_pos ⟨rfl, by omega⟩, getD_zfill _ _ _ _ _ (by omega),
        if_neg (by omega), if_pos (by omega)]
  · intro h0 hout
    have hc : ¬ (v.cap / 2 ≤ newSize ∧ newSize ≤ v.cap) := by omega
    cases p
    · refine ⟨_, Vector.setSize_realloc_new v newSize z (by omega) hc, ?_⟩
      show ((if z then List.replicate newSize.toNat (0:ℚ)
          else List.replicate newSize.toNat uninit).length : ℤ) = newSize
      split <;> simp only [List.length_replicate] <;> omega
    · refine ⟨_,
        Vector.setSize_realloc_preserve v newSize z (by omega) hc, ?_⟩
      show ((if newSize ≤ v.sz then v.va.take newSize.toNat
        else v.va.take v.sz.toNat ++
          (if z then List.replicate (newSize - v.sz).toNat (0:ℚ)
           else List.replicate (newSize - v.sz).toNat uninit)).length : ℤ)
        = newSize
      split
      · simp only [List.length_take]
        omega
      · split <;>
          simp only [List.length_append, List.length_take,
            List.length_replicate] <;> omega

/-- Counterexample to C6 as stated: for the vector `[1, 2]` (capacity 2)
and the requested size `-1`, which lies outside the window `[1, 2]`,
`setSize` raises invalid-argument instead of making the capacity `-1`. -/
theorem C6_setSize_hysteresis_counterexample :
    Vector.setSize ⟨[1, 2], 2⟩ (-1) true true =
      Except.error Err.illegalArgument := by
  rfl

/-- Witness for C6 on the vector `[1, 2, 3]` (capacity 3). -/
theorem C6_setSize_hysteresis_witness :
    ((Vector.mk [1, 2, 3] 3).cap / 2 ≤ (2:ℤ) → (2:ℤ) ≤ (Vector.mk [1, 2, 3] 3).cap →
      ∃ u, Vector.setSize ⟨[1, 2, 3], 3⟩ 2 true true = Except.ok u ∧
        u.cap = (Vector.mk [1, 2, 3] 3).cap ∧ u.sz = 2 ∧
        (true = false → u.va = (Vector.mk [1, 2, 3] 3).va) ∧
        (∀ i : ℕ, (i : ℤ) < (Vector.mk [1, 2, 3] 3).sz →
          u.va.getD i 0 = (Vector.mk [1, 2, 3] 3).va.getD i 0) ∧
        (∀ i : ℕ, (2:ℤ) ≤ (i : ℤ) →
          u.va.getD i 0 = (Vector.mk [1, 2, 3] 3).va.getD i 0) ∧
        (true = true → ∀ i : ℕ, (Vector.mk [1, 2, 3] 3).sz ≤ (i : ℤ) →
          (i : ℤ) < 2 → u.va.getD i 0 = 0)) ∧
    (0 ≤ (2:ℤ) → ((2:ℤ) < (Vector.mk [1, 2, 3] 3).cap / 2 ∨
        (Vector.mk [1, 2, 3] 3).cap < 2) →
      ∃ u, Vector.setSize ⟨[1, 2, 3], 3⟩ 2 true true = Except.ok u ∧
        u.cap = 2) ∧
    ((2:ℤ) < 0 → Vector.setSize ⟨[1, 2, 3], 3⟩ 2 true true =
      Except.error Err.illegalArgument) :=
  C6_setSize_hysteresis ⟨[1, 2, 3], 3⟩ (by decide) 2 true true

/-- C8: every Vector operation that produces or mutates a vector
preserves the invariant `0 ≤ size ≤ capacity`; on paths that raise an
error no vector is produced and the operands keep their state (the
checks precede every write in the source). The read-only operations
(`operator[] const`, dot product, `len`) touch no size or capacity. -/
theorem C8_vector_invariant :
    (∀ (n : ℤ) (z : Bool) (u : Vector), Vector.make n z = .ok u → u.Inv) ∧
    (∀ v : Vector, v.Inv → (Vector.copy v).Inv) ∧
    (∀ (v src u : Vector), v.Inv → src.Inv →
      Vector.assign v src = .ok u → u.Inv) ∧
    (∀ (v : Vector) (n : ℤ) (p z : Bool) (u : Vector), v.Inv →
      Vector.setSize v n p z = .ok u → u.Inv) ∧
    (∀ v : Vector, v.Inv → (Vector.clear v).Inv) ∧
    (∀ (v : Vector) (i : ℤ) (x : ℚ) (u : Vector), v.Inv →
      Vector.set v i x = .ok u → u.Inv) ∧
    (∀ (v w u : Vector), v.Inv → Vector.add v w = .ok u → u.Inv) ∧
    (∀ (v w u : Vector), v.Inv → Vector.addAssign v w = .ok u → u.Inv) ∧
    (∀ (v w u : Vector), v.Inv → Vector.sub v w = .ok u → u.Inv) ∧
    (∀ (v w u : Vector), v.Inv → Vector.subAssign v w = .ok u → u.Inv) ∧
    (∀ (v : Vector) (c : ℚ), v.Inv → (Vector.smul v c).Inv) ∧
    (∀ (v : Vector) (c : ℚ), v.Inv → (Vector.smulAssign v c).Inv) := by
  refine ⟨?_, ?_, ?_, ?_, ?_, ?_, ?_, ?_, ?_, ?_, ?_, ?_⟩
  · intro n z u h
    unfold Vector.make at h
    split at h
    · exact absurd h (by simp)
    · injection h with h
      subst h
      rename_i h0
      refine ⟨show (0:ℤ) ≤ n by omega, ?_⟩
      show (n : ℤ) ≤ ((if z then List.replicate n.toNat (0:ℚ)
          else List.replicate n.toNat uninit).length : ℤ)
      split <;> simp only [List.length_replicate] <;> omega
  · intro v hv
    obtain ⟨hs0, hsc⟩ := hv
    have hcap' : v.cap = (v.va.length : ℤ) := rfl
    refine ⟨hs0, ?_⟩
    show v.sz ≤ ((v.va.take v.sz.toNat).length : ℤ)
    simp only [List.length_take]
    omega
  · intro v src u hv hsrc h
    unfold Vector.assign at h
    split at h
    · exact absurd h (by simp)
    · rename_i u0 heq
      obtain ⟨hu0sz, hn0, hu0⟩ := Vector.setSize_ok_spec v src.sz false false
        u0 hv heq
      injection h with h
      subst h
      obtain ⟨h1, h2⟩ := hu0
      obtain ⟨h3, h4⟩ := hsrc
      have hc0 : u0.cap = (u0.va.length : ℤ) := rfl
      have hcs : src.cap = (src.va.length : ℤ) := rfl
      refine ⟨show (0:ℤ) ≤ u0.sz from h1, ?_⟩
      show u0.sz ≤ ((src.va.take u0.sz.toNat ++
        u0.va.drop u0.sz.toNat).length : ℤ)
      simp only [List.length_append, List.length_take, List.length_drop]
      omega
  · intro v n p z u hv h
    exact (Vector.setSize_ok_spec v n p z u hv h).2.2
  · intro v hv
    obtain ⟨hs0, hsc⟩ := hv
    have hcap' : v.cap = (v.va.length : ℤ) := rfl
    refine ⟨hs0, ?_⟩
    show v.sz ≤ ((List.replicate v.sz.toNat (0:ℚ) ++
      v.va.drop v.sz.toNat).length : ℤ)
    simp only [List.length_append, List.length_replicate, List.length_drop]
    omega
  · intro v i x u hv h
    unfold Vector.set at h
    split at h
    · exact absurd h (by simp)
    · injection h with h
      subst h
      obtain ⟨hs0, hsc⟩ := hv
      have hcap' : v.cap = (v.va.length : ℤ) := rfl
      refine ⟨hs0, ?_⟩
      show v.sz ≤ ((v.va.set i.toNat x).length : ℤ)
      simp only [List.length_set]
      omega
  · intro v w u hv h
    unfold Vector.add at h
    split at h
    · exact absurd h (by simp)
    · injection h with h
      subst h
      obtain ⟨hs0, _⟩ := hv
      refine ⟨hs0, ?_⟩
      show v.sz ≤ (((List.range v.sz.toNat).map _).length : ℤ)
      simp only [List.length_map, List.length_range]
      omega
  · intro v w u hv h
    unfold Vector.addAssign at h
    split at h
    · exact absurd h (by simp)
    · injection h with h
      subst h
      obtain ⟨hs0, hsc⟩ := hv
      have hcap' : v.cap = (v.va.length : ℤ) := rfl
      refine ⟨hs0, ?_⟩
      show v.sz ≤ (((List.range v.sz.toNat).map _ ++
        v.va.drop v.sz.toNat).length : ℤ)
      simp only [List.length_append, List.length_map, List.length_range,
        List.length_drop]
      omega
  · intro v w u hv h
    unfold Vector.sub at h
    split at h
    · exact absurd h (by simp)
    · injection h with h
      subst h
      obtain ⟨hs0, _⟩ := hv
      refine ⟨hs0, ?_⟩
      show v.sz ≤ (((List.range v.sz.toNat).map _).length : ℤ)
      simp only [List.length_map, List.length_range]
      omega
  · intro v w u hv h
    unfold Vector.subAssign at h
    split at h
    · exact absurd h (by simp)
    · injection h with h
      subst h
      obtain ⟨hs0, hsc⟩ := hv
      have hcap' : v.cap = (v.va.length : ℤ) := rfl
      refine ⟨hs0, ?_⟩
      show v.sz ≤ (((List.range v.sz.toNat).map _ ++
        v.va.drop v.sz.toNat).length : ℤ)
      simp only [List.length_append, List.length_map, List.length_range,
        List.length_drop]
      omega
  · intro v c hv
    obtain ⟨hs0, _⟩ := hv
    refine ⟨hs0, ?_⟩
    show v.sz ≤ (((List.range v.sz.toNat).map _).length : ℤ)
    simp only [List.length_map, List.length_range]
    omega
  · intro v c hv
    obtain ⟨hs0, hsc⟩ := hv
    have hcap' : v.cap = (v.va.length : ℤ) := rfl
    refine ⟨hs0, ?_⟩
    show v.sz ≤ (((List.range v.sz.toNat).map _ ++
      v.va.drop v.sz.toNat).length : ℤ)
    simp only [List.length_append, List.length_map, List.length_range,
      List.length_drop]
    omega

/-- Witness for C8: the invariant after `setSize` on a concrete vector. -/
theorem C8_vector_invariant_witness :
    (Vector.mk [1, 2] 2).Inv ∧ Vector.Inv ⟨[0, 0, 0], 3⟩ :=
  ⟨by decide, C8_vector_invariant.2.2.2.1 ⟨[1, 2], 2⟩ 3 false true
    ⟨[0, 0, 0], 3⟩ (by decide) (by rfl)⟩

/-- C9: `Vector::len(int dims)` raises invalid-argument exactly when
`dims > size`; for every `dims ≤ 0` (negative included) no lower bound
is checked, the summation loop is empty, and the result is `sqrt 0 = 0`. -/
theorem C9_len_dims (v : Vector) (hv : v.Inv) (dims : ℤ) :
    ((v.len dims).isOk ↔ dims ≤ v.sz) ∧
    (dims ≤ 0 → v.len dims = Except.ok 0) := by
  obtain ⟨hs0, _⟩ := hv
  constructor
  · unfold Vector.len Vector.len2
    by_cases h : v.sz < dims
    · rw [if_pos h]
      simp only [Except.map, Except.isOk, Except.toBool]
      constructor
      · intro hk
        exact absurd hk (by simp)
      · omega
    · rw [if_neg h]
      simp only [Except.map, Except.isOk, Except.toBool]
      constructor
      · intro _
        omega
      · intro _
        rfl
  · intro hd
    unfold Vector.len Vector.len2
    rw [if_neg (by omega)]
    have hz : dims.toNat = 0 := by omega
    rw [hz]
    simp [Except.map, Real.sqrt_zero]

/-- Witness for C9 on the vector `[2]` with `dims = -1`. -/
theorem C9_len_dims_witness :
    ((Vector.len ⟨[2], 1⟩ (-1)).isOk ↔ (-1:ℤ) ≤ (Vector.mk [2] 1).sz) ∧
    ((-1:ℤ) ≤ 0 → Vector.len ⟨[2], 1⟩ (-1) = Except.ok 0) :=
  C9_len_dims ⟨[2], 1⟩ (by decide) (-1)

/-! Matrix: a `rows × cols` dense buffer with O(1) row access. The flat
buffer plus row-pointer table of the source is modelled as the entry
function `mat`; cells outside `[0, rws) × [0, cls)` are not part of the
allocation and no verified claim reads them. -/

/-- Transcription of `class Matrix` (`rws × cls`, row-major buffer). -/
structure Matrix where
  rws : ℕ
  cls : ℕ
  mat : ℕ → ℕ → ℚ

/-- Transcription of `Matrix::alloc(rows, cols, setZero)`: fresh buffer,
zero-filled on request, uninitialised otherwise. -/
def Matrix.alloc (rows cols : ℕ) (setZero : Bool) : Matrix :=
  ⟨rows, cols, fun _ _ => if setZero then 0 else uninit⟩

/-- Transcription of `Matrix::transpose(Matrix&)`: reallocate the output
to `cls × rws` when its shape differs, then copy `(i, j) ↦ (j, i)` for
every `i < rws`, `j < cls`. -/
def Matrix.transpose (a t : Matrix) : Matrix :=
  let t0 := if t.rws ≠ a.cls ∨ t.cls ≠ a.rws then Matrix.alloc a.cls a.rws false
    else t
  ⟨t0.rws, t0.cls, fun r c => if r < a.cls ∧ c < a.rws then a.mat c r
    else t0.mat r c⟩

/-- C7: transposing twice restores every entry of `A` exactly, with the
original shape; a single transpose always leaves its output with shape
`cols × rows` (reallocating exactly when the output's shape differs). -/
lemma Matrix.transpose_rws (a t : Matrix) : (a.transpose t).rws = a.cls := by
  unfold Matrix.transpose
  by_cases ht : t.rws ≠ a.cls ∨ t.cls ≠ a.rws
  · rw [if_pos ht]
    rfl
  · rw [if_neg ht]
    push_neg at ht
    exact ht.1

lemma Matrix.transpose_cls (a t : Matrix) : (a.transpose t).cls = a.rws := by
  unfold Matrix.transpose
  by_cases ht : t.rws ≠ a.cls ∨ t.cls ≠ a.rws
  · rw [if_pos ht]
    rfl
  · rw [if_neg ht]
    push_neg at ht
    exact ht.2

lemma Matrix.alloc_rws (rows cols : ℕ) (z : Bool) :
    (Matrix.alloc rows cols z).rws = rows := rfl

lemma Matrix.alloc_cls (rows cols : ℕ) (z : Bool) :
    (Matrix.alloc rows cols z).cls = cols := rfl

lemma Matrix.transpose_mat_in (a t : Matrix) (i j : ℕ) (hi : i < a.rws)
    (hj : j < a.cls) : (a.transpose t).mat j i = a.mat i j := by
  unfold Matrix.transpose
  by_cases ht : t.rws ≠ a.cls ∨ t.cls ≠ a.rws
  · rw [if_pos ht]
    exact if_pos ⟨hj, hi⟩
  · rw [if_neg ht]
    exact if_pos ⟨hj, hi⟩

theorem C7_transpose_involution (a b c : Matrix) :
    (a.transpose b).rws = a.cls ∧ (a.transpose b).cls = a.rws ∧
    ((a.transpose b).transpose c).rws = a.rws ∧
    ((a.transpose b).transpose c).cls = a.cls ∧
    (∀ i j : ℕ, i < a.rws → j < a.cls →
      ((a.transpose b).transpose c).mat i j = a.mat i j) := by
  refine ⟨Matrix.transpose_rws a b, Matrix.transpose_cls a b, ?_, ?_, ?_⟩
  · rw [Matrix.transpose_rws, Matrix.transpose_cls]
  · rw [Matrix.transpose_cls, Matrix.transpose_rws]
  · intro i j hi hj
    have h1 : (a.transpose b).mat j i = a.mat i j :=
      Matrix.transpose_mat_in a b i j hi hj
    have h2 : ((a.transpose b).transpose c).mat i j = (a.transpose b).mat j i :=
      Matrix.transpose_mat_in (a.transpose b) c j i
        (by rw [Matrix.transpose_rws]; exact hj)
        (by rw [Matrix.transpose_cls]; exact hi)
    rw [h2, h1]

/-- Witness for C7 on a concrete `1 × 2` matrix. -/
theorem C7_transpose_involution_witness :
    (Matrix.transpose ⟨1, 2, fun r c => (r : ℚ) + 2 * c⟩ ⟨1, 1, fun _ _ => 0⟩).rws = 2 ∧
    (Matrix.transpose ⟨1, 2, fun r c => (r : ℚ) + 2 * c⟩ ⟨1, 1, fun _ _ => 0⟩).cls = 1 ∧
    ((Matrix.transpose ⟨1, 2, fun r c => (r : ℚ) + 2 * c⟩ ⟨1, 1, fun _ _ => 0⟩).transpose
      ⟨1, 1, fun _ _ => 0⟩).rws = 1 ∧
    ((Matrix.transpose ⟨1, 2, fun r c => (r : ℚ) + 2 * c⟩ ⟨1, 1, fun _ _ => 0⟩).transpose
      ⟨1, 1, fun _ _ => 0⟩).cls = 2 ∧
    (∀ i j : ℕ, i < 1 → j < 2 →
      ((Matrix.transpose ⟨1, 2, fun r c => (r : ℚ) + 2 * c⟩ ⟨1, 1, fun _ _ => 0⟩).transpose
        ⟨1, 1, fun _ _ => 0⟩).mat i j = (fun r c => (r : ℚ) + 2 * c) i j) :=
  C7_transpose_involution ⟨1, 2, fun r c => (r : ℚ) + 2 * c⟩
    ⟨1, 1, fun _ _ => 0⟩ ⟨1, 1, fun _ _ => 0⟩

/-! Banded LDLT factorization (`Matrix::solveLDLT`, lines 440-475 and the
identical pass at lines 538-568).  The banded storage convention holds the
true entry `(i, i+k)` at physical column `k` of row `i`.  The pass is a
fold of `rowStep` over the rows; each `rowStep` is the diagonal
accumulation loop followed by the fold of `innerStep` over the band
`(i, min (i+cls) rws)`.  Accumulation-only loops (`dd -= ...`,
`m -= ...`) are written as `Finset` sums over the loop ranges. -/

/-- Negligibility threshold `1e-12` of the `lwb` advancement test. -/
def negligible : ℚ := 1 / 1000000000000

/-- State of the factorization pass: the banded storage and the per-row
lower-bound array `lwbIdx`. -/
structure FactState where
  mat : ℕ → ℕ → ℚ
  lwb : ℕ → ℕ

/-- Single-cell store `mat[r][c] = x`. -/
def updMat (f : ℕ → ℕ → ℚ) (r c : ℕ) (x : ℚ) : ℕ → ℕ → ℚ :=
  fun r' c' => if r' = r ∧ c' = c then x else f r' c'

/-- Single-cell store `lwbIdx[j] = x`. -/
def updLwb (f : ℕ → ℕ) (j x : ℕ) : ℕ → ℕ :=
  fun j' => if j' = j then x else f j'

lemma updMat_apply (f : ℕ → ℕ → ℚ) (r c : ℕ) (x : ℚ) (r' c' : ℕ) :
    updMat f r c x r' c' = if r' = r ∧ c' = c then x else f r' c' := rfl

lemma updLwb_apply (f : ℕ → ℕ) (j x j' : ℕ) :
    updLwb f j x j' = if j' = j then x else f j' := rfl

lemma FactState.mat_mk (M : ℕ → ℕ → ℚ) (L : ℕ → ℕ) :
    (FactState.mk M L).mat = M := rfl

lemma FactState.lwb_mk (M : ℕ → ℕ → ℚ) (L : ℕ → ℕ) :
    (FactState.mk M L).lwb = L := rfl

/-- Initialisation of `lwbIdx`: `0` for `i < cls`, `i - cls + 1` after. -/
def initLwb (cls : ℕ) : ℕ → ℕ := fun i => if i < cls then 0 else i - cls + 1

/-- The multiplier cache filled by the diagonal loop of row `i`:
`r[j] = mat[j][0] * mat[j][i-j]`. -/
def rCache (mat : ℕ → ℕ → ℚ) (i : ℕ) : ℕ → ℚ :=
  fun j => mat j 0 * mat j (i - j)

/-- The diagonal accumulation of row `i`:
`dd = mat[i][0] - Σ_{j ∈ [lwb i, i)} r[j] * mat[j][i-j]`. -/
def ddOf (s : FactState) (i : ℕ) : ℚ :=
  s.mat i 0 - ∑ j in Finset.Ico (s.lwb i) i,
    (s.mat j 0 * s.mat j (i - j)) * s.mat j (i - j)

/-- One iteration of the inner band loop at column `j` of row `i`:
accumulate `m`, divide by `dd`, store it at `mat[i][j-i]`, and advance
`lwbIdx[j]` when `|m| < 1e-12` and `lwbIdx[j] = i`. -/
def innerStep (i : ℕ) (dd : ℚ) (r : ℕ → ℚ) (s : FactState) (j : ℕ) :
    FactState :=
  let m := (s.mat i (j - i) -
    ∑ k in Finset.Ico (max (s.lwb i) (s.lwb j)) i, s.mat k (j - k) * r k) / dd
  ⟨updMat s.mat i (j - i) m,
   if |m| < negligible ∧ s.lwb j = i then updLwb s.lwb j (i + 1) else s.lwb⟩

/-- Processing of row `i`: the diagonal loop (computing `dd` and the
cache `r`), the store `mat[i][0] = dd`, and the inner band loop for
`j ∈ (i, min (i+cls) rws)`. -/
def rowStep (rws cls : ℕ) (s : FactState) (i : ℕ) : FactState :=
  let dd := ddOf s i
  let s1 : FactState := ⟨updMat s.mat i 0 dd, s.lwb⟩
  (List.range' (i + 1) (min (i + cls) rws - (i + 1))).foldl
    (innerStep i dd (rCache s.mat i)) s1

/-- State of the factorization pass before row `i` is processed. -/
def stateAt (rws cls : ℕ) (a : ℕ → ℕ → ℚ) (i : ℕ) : FactState :=
  (List.range i).foldl (rowStep rws cls) ⟨a, initLwb cls⟩

/-- The complete factorization pass. -/
def factorize (rws cls : ℕ) (a : ℕ → ℕ → ℚ) : FactState :=
  stateAt rws cls a rws

/-- Closed form of the off-diagonal multiplier stored at `mat[i][j-i]`,
in terms of the state at the start of row `i`. -/
def mOf (s : FactState) (i j : ℕ) : ℚ :=
  (s.mat i (j - i) - ∑ k in Finset.Ico (max (s.lwb i) (s.lwb j)) i,
    s.mat k (j - k) * (s.mat k 0 * s.mat k (i - k))) / ddOf s i

lemma innerStep_eq (i : ℕ) (dd : ℚ) (r : ℕ → ℚ) (s : FactState) (j : ℕ) :
    innerStep i dd r s j =
      ⟨updMat s.mat i (j - i) ((s.mat i (j - i) -
          ∑ k in Finset.Ico (max (s.lwb i) (s.lwb j)) i,
            s.mat k (j - k) * r k) / dd),
       if |(s.mat i (j - i) -
          ∑ k in Finset.Ico (max (s.lwb i) (s.lwb j)) i,
            s.mat k (j - k) * r k) / dd| < negligible ∧ s.lwb j = i
       then updLwb s.lwb j (i + 1) else s.lwb⟩ := rfl

/-- Characterization of the inner band fold over `[i+1, i+1+n)`: the
cells `(i, 0)` and `(i, c)` with `1 ≤ c`, `i + c < i+1+n` are written
with `ddOf` and `mOf`, everything else is untouched, and `lwbIdx j` is
advanced to `i+1` exactly for the processed `j` with a negligible
multiplier and `lwbIdx j = i`. -/
lemma innerFold_char (s : FactState) (i n : ℕ) :
    (∀ r c, ((List.range' (i + 1) n).foldl
        (innerStep i (ddOf s i) (rCache s.mat i))
        ⟨updMat s.mat i 0 (ddOf s i), s.lwb⟩).mat r c =
      if r = i ∧ c = 0 then ddOf s i
      else if r = i ∧ 1 ≤ c ∧ i + c < i + 1 + n then mOf s i (i + c)
      else s.mat r c) ∧
    (∀ j, ((List.range' (i + 1) n).foldl
        (innerStep i (ddOf s i) (rCache s.mat i))
        ⟨updMat s.mat i 0 (ddOf s i), s.lwb⟩).lwb j =
      if i + 1 ≤ j ∧ j < i + 1 + n ∧ |mOf s i j| < negligible ∧ s.lwb j = i
      then i + 1 else s.lwb j) := by
  induction n with
  | zero =>
    constructor
    · intro r c
      show updMat s.mat i 0 (ddOf s i) r c = _
      rw [updMat_apply]
      by_cases h1 : r = i ∧ c = 0
      · rw [if_pos h1, if_pos h1]
      · rw [if_neg h1, if_neg h1, if_neg (by omega)]
    · intro j
      show s.lwb j = _
      rw [if_neg (by omega)]
  | succ n ih =>
    obtain ⟨ihm, ihl⟩ := ih
    have hconc : List.range' (i + 1) (n + 1) =
        List.range' (i + 1) n ++ [i + 1 + n] := by
      rw [List.range'_concat]
      simp
    rw [hconc]
    rw [List.foldl_append]
    have hli : ((List.range' (i + 1) n).foldl
        (innerStep i (ddOf s i) (rCache s.mat i))
        ⟨updMat s.mat i 0 (ddOf s i), s.lwb⟩).lwb i = s.lwb i := by
      rw [ihl, if_neg (by omega)]
    have hlj : ((List.range' (i + 1) n).foldl
        (innerStep i (ddOf s i) (rCache s.mat i))
        ⟨updMat s.mat i 0 (ddOf s i), s.lwb⟩).lwb (i + 1 + n) =
        s.lwb (i + 1 + n) := by
      rw [ihl, if_neg (by omega)]
    have hmi : ((List.range' (i + 1) n).foldl
        (innerStep i (ddOf s i) (rCache s.mat i))
        ⟨updMat s.mat i 0 (ddOf s i), s.lwb⟩).mat i (i + 1 + n - i) =
        s.mat i (i + 1 + n - i) := by
      rw [ihm, if_neg (by omega), if_neg (by omega)]
    have hsum : ∑ k in Finset.Ico
        (max (s.lwb i) (s.lwb (i + 1 + n))) i,
        ((List.range' (i + 1) n).foldl
          (innerStep i (ddOf s i) (rCache s.mat i))
          ⟨updMat s.mat i 0 (ddOf s i), s.lwb⟩).mat k (i + 1 + n - k) *
          rCache s.mat i k =
        ∑ k in Finset.Ico (max (s.lwb i) (s.lwb (i + 1 + n))) i,
          s.mat k (i + 1 + n - k) * (s.mat k 0 * s.mat k (i - k)) := by
      refine Finset.sum_congr rfl ?_
      intro k hk
      rw [Finset.mem_Ico] at hk
      rw [ihm, if_neg (by omega), if_neg (by omega)]
      rfl
    have hstep : innerStep i (ddOf s i) (rCache s.mat i)
        ((List.range' (i + 1) n).foldl
          (innerStep i (ddOf s i) (rCache s.mat i))
          ⟨updMat s.mat i 0 (ddOf s i), s.lwb⟩) (i + 1 + n) =
        ⟨updMat ((List.range' (i + 1) n).foldl
            (innerStep i (ddOf s i) (rCache s.mat i))
            ⟨updMat s.mat i 0 (ddOf s i), s.lwb⟩).mat
          i (i + 1 + n - i) (mOf s i (i + 1 + n)),
         if |mOf s i (i + 1 + n)| < negligible ∧ s.lwb (i + 1 + n) = i
         then updLwb ((List.range' (i + 1) n).foldl
            (innerStep i (ddOf s i) (rCache s.mat i))
            ⟨updMat s.mat i 0 (ddOf s i), s.lwb⟩).lwb (i + 1 + n) (i + 1)
         else ((List.range' (i + 1) n).foldl
            (innerStep i (ddOf s i) (rCache s.mat i))
            ⟨updMat s.mat i 0 (ddOf s i), s.lwb⟩).lwb⟩ := by
      rw [innerStep_eq, hli, hlj, hmi, hsum]
      rfl
    rw [List.foldl_cons, List.foldl_nil, hstep]
    constructor
    · intro r c
      rw [FactState.mat_mk, updMat_apply]
      by_cases h1 : r = i ∧ c = i + 1 + n - i
      · rw [if_pos h1]
        obtain ⟨hr, hc⟩ := h1
        have hc' : i + c = i + 1 + n := by omega
        rw [if_neg (by omega), if_pos (by omega), hc']
      · rw [if_neg h1, ihm]
        by_cases h2 : r = i ∧ c = 0
        · rw [if_pos h2, if_pos h2]
        · rw [if_neg h2, if_neg h2]
          by_cases h3 : r = i ∧ 1 ≤ c ∧ i + c < i + 1 + n
          · rw [if_pos h3, if_pos (by omega)]
          · rw [if_neg h3, if_neg (by omega)]
    · intro j
      rw [FactState.lwb_mk]
      by_cases hcond : |mOf s i (i + 1 + n)| < negligible ∧
          s.lwb (i + 1 + n) = i
      · rw [if_pos hcond, updLwb_apply]
        by_cases hj : j = i + 1 + n
        · subst hj
          rw [if_pos rfl, if_pos (by exact ⟨by omega, by omega,
            hcond.1, hcond.2⟩)]
        · rw [if_neg hj, ihl]
          by_cases h4 : i + 1 ≤ j ∧ j < i + 1 + n ∧
              |mOf s i j| < negligible ∧ s.lwb j = i
          · rw [if_pos h4, if_pos ⟨h4.1, by omega, h4.2.2⟩]
          · rw [if_neg h4, if_neg (by
              rintro ⟨a1, a2, a3, a4⟩
              exact h4 ⟨a1, by omega, a3, a4⟩)]
      · rw [if_neg hcond, ihl]
        by_cases h4 : i + 1 ≤ j ∧ j < i + 1 + n ∧
            |mOf s i j| < negligible ∧ s.lwb j = i
        · rw [if_pos h4, if_pos ⟨h4.1, by omega, h4.2.2⟩]
        · rw [if_neg h4, if_neg (by
            rintro ⟨a1, a2, a3, a4⟩
            by_cases hj : j = i + 1 + n
            · subst hj
              exact hcond ⟨a3, a4⟩
            · exact h4 ⟨a1, by omega, a3, a4⟩)]

lemma rowStep_eq (rws cls : ℕ) (s : FactState) (i : ℕ) :
    rowStep rws cls s i =
      (List.range' (i + 1) (min (i + cls) rws - (i + 1))).foldl
        (innerStep i (ddOf s i) (rCache s.mat i))
        ⟨updMat s.mat i 0 (ddOf s i), s.lwb⟩ := rfl

/-- Row `i` writes exactly the cells `(i, 0)` (the diagonal factor) and
`(i, c)` for `1 ≤ c`, `i + c < min (i+cls) rws` (the multipliers). -/
lemma rowStep_mat (rws cls : ℕ) (h1 : 1 ≤ cls) (s : FactState) (i : ℕ)
    (hi : i < rws) (r c : ℕ) :
    (rowStep rws cls s i).mat r c =
      if r = i ∧ c = 0 then ddOf s i
      else if r = i ∧ 1 ≤ c ∧ i + c < min (i + cls) rws then mOf s i (i + c)
      else s.mat r c := by
  have h : i + 1 + (min (i + cls) rws - (i + 1)) = min (i + cls) rws := by
    omega
  rw [rowStep_eq, (innerFold_char s i (min (i + cls) rws - (i + 1))).1, h]

/-- Row `i` advances `lwbIdx j` to `i + 1` exactly for the `j` in the
band `(i, min (i+cls) rws)` whose multiplier is negligible while
`lwbIdx j = i`. -/
lemma rowStep_lwb (rws cls : ℕ) (h1 : 1 ≤ cls) (s : FactState) (i : ℕ)
    (hi : i < rws) (j : ℕ) :
    (rowStep rws cls s i).lwb j =
      if i + 1 ≤ j ∧ j < min (i + cls) rws ∧ |mOf s i j| < negligible ∧
          s.lwb j = i
      then i + 1 else s.lwb j := by
  have h : i + 1 + (min (i + cls) rws - (i + 1)) = min (i + cls) rws := by
    omega
  rw [rowStep_eq, (innerFold_char s i (min (i + cls) rws - (i + 1))).2, h]

lemma stateAt_succ (rws cls : ℕ) (a : ℕ → ℕ → ℚ) (i : ℕ) :
    stateAt rws cls a (i + 1) = rowStep rws cls (stateAt rws cls a i) i := by
  unfold stateAt
  rw [List.range_succ, List.foldl_append, List.foldl_cons, List.foldl_nil]

/-- Rows at or beyond `i` are untouched before row `i` is processed. -/
lemma stateAt_mat_untouched (rws cls : ℕ) (a : ℕ → ℕ → ℚ) (h1 : 1 ≤ cls) :
    ∀ i, i ≤ rws → ∀ r c, i ≤ r → (stateAt rws cls a i).mat r c = a r c := by
  intro i
  induction i with
  | zero => intro _ r c _; rfl
  | succ i ih =>
    intro hle r c hr
    rw [stateAt_succ, rowStep_mat rws cls h1 _ i (by omega),
      if_neg (by omega), if_neg (by omega)]
    exact ih (by omega) r c (by omega)

/-- Rows below `i` are frozen from the start of row `i` on. -/
lemma stateAt_mat_frozen (rws cls : ℕ) (a : ℕ → ℕ → ℚ) (h1 : 1 ≤ cls)
    (i i' : ℕ) (hii' : i ≤ i') (hi' : i' ≤ rws) (r c : ℕ) (hr : r < i) :
    (stateAt rws cls a i').mat r c = (stateAt rws cls a i).mat r c := by
  revert hi'
  induction i', hii' using Nat.le_induction with
  | base => intro _; rfl
  | succ n hn ih =>
    intro hn1
    rw [stateAt_succ, rowStep_mat rws cls h1 _ n (by omega),
      if_neg (by omega), if_neg (by omega)]
    exact ih (by omega)

/-- C1: the factorization pass of `solveLDLT` computes, for each row `i`
in order, the diagonal factor `d_i = A[i][i] - Σ_{j=lwb[i]}^{i-1}
L[j][i-j]·r_j` (with `r_j = L[j][i-j]·D[j]`) at physical column 0 of row
`i`, and for each `j ∈ (i, min (i+cols) rows)` the multiplier
`m = (A[i][j] - Σ_{k=max(lwb[i],lwb[j])}^{i-1} L[k][j-k]·r_k) / d_i` at
physical column `j-i`, advancing `lwb[j]` to `i+1` exactly when
`|m| < 1e-12` and `lwb[j] = i`, with `lwb` initialised to `0` for
`i < cols` and `i-cols+1` for `i ≥ cols`. -/
theorem C1_factorization_pass (rws cls : ℕ) (a : ℕ → ℕ → ℚ) (h1 : 1 ≤ cls)
    (h2 : cls ≤ rws) (i : ℕ) (hi : i < rws) :
    (∀ j, (stateAt rws cls a 0).lwb j = if j < cls then 0 else j - cls + 1) ∧
    ((factorize rws cls a).mat i 0 =
      a i 0 - ∑ j in Finset.Ico ((stateAt rws cls a i).lwb i) i,
        ((factorize rws cls a).mat j 0 * (factorize rws cls a).mat j (i - j)) *
          (factorize rws cls a).mat j (i - j)) ∧
    (∀ j, i < j → j < min (i + cls) rws →
      (factorize rws cls a).mat i (j - i) =
        (a i (j - i) - ∑ k in Finset.Ico
            (max ((stateAt rws cls a i).lwb i) ((stateAt rws cls a i).lwb j))
            i,
          (factorize rws cls a).mat k (j - k) *
            ((factorize rws cls a).mat k 0 *
              (factorize rws cls a).mat k (i - k))) /
          (factorize rws cls a).mat i 0) ∧
    (∀ j, i < j → j < min (i + cls) rws →
      (stateAt rws cls a (i + 1)).lwb j =
        if |(factorize rws cls a).mat i (j - i)| < negligible ∧
            (stateAt rws cls a i).lwb j = i
        then i + 1 else (stateAt rws cls a i).lwb j) ∧
    (∀ j, j ≤ i ∨ min (i + cls) rws ≤ j →
      (stateAt rws cls a (i + 1)).lwb j = (stateAt rws cls a i).lwb j) := by
  have hfrozen : ∀ r c, r < i →
      (factorize rws cls a).mat r c = (stateAt rws cls a i).mat r c :=
    fun r c hr => stateAt_mat_frozen rws cls a h1 i rws (by omega)
      (le_refl rws) r c hr
  have hrowi : ∀ c, (factorize rws cls a).mat i c =
      (rowStep rws cls (stateAt rws cls a i) i).mat i c := by
    intro c
    have h := stateAt_mat_frozen rws cls a h1 (i + 1) rws (by omega)
      (le_refl rws) i c (by omega)
    rw [stateAt_succ] at h
    exact h
  have huntouched : ∀ c, (stateAt rws cls a i).mat i c = a i c :=
    fun c => stateAt_mat_untouched rws cls a h1 i (by omega) i c (le_refl i)
  have hdd : (factorize rws cls a).mat i 0 = ddOf (stateAt rws cls a i) i := by
    rw [hrowi 0, rowStep_mat rws cls h1 _ i hi, if_pos ⟨rfl, rfl⟩]
  have hmult : ∀ j, i < j → j < min (i + cls) rws →
      (factorize rws cls a).mat i (j - i) = mOf (stateAt rws cls a i) i j := by
    intro j hij hj
    have hji : i + (j - i) = j := by omega
    rw [hrowi (j - i), rowStep_mat rws cls h1 _ i hi,
      if_neg (by omega), if_pos ⟨rfl, by omega, by omega⟩, hji]
  refine ⟨fun j => rfl, ?_, ?_, ?_, ?_⟩
  · rw [hdd]
    unfold ddOf
    rw [huntouched 0]
    congr 1
    refine Finset.sum_congr rfl ?_
    intro j hj
    rw [Finset.mem_Ico] at hj
    rw [hfrozen j 0 hj.2, hfrozen j (i - j) hj.2]
  · intro j hij hj
    rw [hmult j hij hj]
    unfold mOf
    rw [huntouched (j - i), hdd]
    congr 2
    refine Finset.sum_congr rfl ?_
    intro k hk
    rw [Finset.mem_Ico] at hk
    rw [hfrozen k (j - k) hk.2, hfrozen k 0 hk.2, hfrozen k (i - k) hk.2]
  · intro j hij hj
    rw [stateAt_succ, rowStep_lwb rws cls h1 _ i hi, hmult j hij hj]
    by_cases hcnd : |mOf (stateAt rws cls a i) i j| < negligible ∧
        (stateAt rws cls a i).lwb j = i
    · rw [if_pos ⟨by omega, by omega, hcnd.1, hcnd.2⟩, if_pos hcnd]
    · rw [if_neg (by
        rintro ⟨a1, a2, a3, a4⟩
        exact hcnd ⟨a3, a4⟩), if_neg hcnd]
  · intro j hj
    rw [stateAt_succ, rowStep_lwb rws cls h1 _ i hi, if_neg (by omega)]

/-- Banded tridiagonal example of the specification: rows
`[[4,1],[4,1],[4,0]]` (bandwidth 2). -/
def aEx : ℕ → ℕ → ℚ := fun r c =>
  if r = 0 ∧ c = 0 then 4 else if r = 0 ∧ c = 1 then 1
  else if r = 1 ∧ c = 0 then 4 else if r = 1 ∧ c = 1 then 1
  else if r = 2 ∧ c = 0 then 4 else 0

/-- Witness for C1 on the tridiagonal example at row `i = 1`. -/
theorem C1_factorization_pass_witness :
    (∀ j, (stateAt 3 2 aEx 0).lwb j = if j < 2 then 0 else j - 2 + 1) ∧
    ((factorize 3 2 aEx).mat 1 0 =
      aEx 1 0 - ∑ j in Finset.Ico ((stateAt 3 2 aEx 1).lwb 1) 1,
        ((factorize 3 2 aEx).mat j 0 * (factorize 3 2 aEx).mat j (1 - j)) *
          (factorize 3 2 aEx).mat j (1 - j)) ∧
    (∀ j, 1 < j → j < min (1 + 2) 3 →
      (factorize 3 2 aEx).mat 1 (j - 1) =
        (aEx 1 (j - 1) - ∑ k in Finset.Ico
            (max ((stateAt 3 2 aEx 1).lwb 1) ((stateAt 3 2 aEx 1).lwb j)) 1,
          (factorize 3 2 aEx).mat k (j - k) *
            ((factorize 3 2 aEx).mat k 0 *
              (factorize 3 2 aEx).mat k (1 - k))) /
          (factorize 3 2 aEx).mat 1 0) ∧
    (∀ j, 1 < j → j < min (1 + 2) 3 →
      (stateAt 3 2 aEx (1 + 1)).lwb j =
        if |(factorize 3 2 aEx).mat 1 (j - 1)| < negligible ∧
            (stateAt 3 2 aEx 1).lwb j = 1
        then 1 + 1 else (stateAt 3 2 aEx 1).lwb j) ∧
    (∀ j, j ≤ 1 ∨ min (1 + 2) 3 ≤ j →
      (stateAt 3 2 aEx (1 + 1)).lwb j = (stateAt 3 2 aEx 1).lwb j) :=
  C1_factorization_pass 3 2 aEx (by decide) (by decide) 1 (by decide)

/-- The lower-bound array stays within `[max (0, j-cls+1), j]` at every
step of the factorization. -/
lemma lwb_invariant (rws cls : ℕ) (a : ℕ → ℕ → ℚ) (h1 : 1 ≤ cls) :
    ∀ i, i ≤ rws → ∀ j, j + 1 - cls ≤ (stateAt rws cls a i).lwb j ∧
      (stateAt rws cls a i).lwb j ≤ j := by
  intro i
  induction i with
  | zero =>
    intro _ j
    show j + 1 - cls ≤ initLwb cls j ∧ initLwb cls j ≤ j
    unfold initLwb
    split <;> omega
  | succ i ih =>
    intro hle j
    obtain ⟨hl, hr⟩ := ih (by omega) j
    rw [stateAt_succ, rowStep_lwb rws cls h1 _ i (by omega)]
    split
    · rename_i hcond
      omega
    · exact ⟨hl, hr⟩

/-- C10: throughout the factorization pass the invariant
`max (0, j-cols+1) ≤ lwb[j] ≤ j` holds, and therefore every banded
access `mat[k][j-k]` or `mat[j][i-j]` made by the factorization and
substitution loops has its physical column in `[0, cols)` and its row in
`[0, rows)`. -/
theorem C10_band_access_safety (rws cls : ℕ) (a : ℕ → ℕ → ℚ)
    (h1 : 1 ≤ cls) (h2 : cls ≤ rws) :
    (∀ i, i ≤ rws → ∀ j, j + 1 - cls ≤ (stateAt rws cls a i).lwb j ∧
      (stateAt rws cls a i).lwb j ≤ j) ∧
    (∀ i, i < rws → ∀ j, (stateAt rws cls a i).lwb i ≤ j → j < i →
      j < rws ∧ 1 ≤ i - j ∧ i - j < cls) ∧
    (∀ i, i < rws → ∀ j, i < j → j < min (i + cls) rws →
      (1 ≤ j - i ∧ j - i < cls ∧ j < rws) ∧
      (∀ k, max ((stateAt rws cls a i).lwb i)
          ((stateAt rws cls a i).lwb j) ≤ k → k < i →
        k < rws ∧ 1 ≤ j - k ∧ j - k < cls ∧ 1 ≤ i - k ∧ i - k < cls)) ∧
    (∀ i, i < rws → ∀ j, (factorize rws cls a).lwb i ≤ j → j < i →
      j < rws ∧ 1 ≤ i - j ∧ i - j < cls) := by
  have hinv := lwb_invariant rws cls a h1
  refine ⟨hinv, ?_, ?_, ?_⟩
  · intro i hi j hjl hji
    obtain ⟨hl, _⟩ := hinv i (by omega) i
    omega
  · intro i hi j hij hj
    refine ⟨⟨by omega, by omega, by omega⟩, ?_⟩
    intro k hk hki
    obtain ⟨hli, _⟩ := hinv i (by omega) i
    obtain ⟨hlj, _⟩ := hinv i (by omega) j
    omega
  · intro i hi j hjl hji
    unfold factorize at hjl
    obtain ⟨hl, _⟩ := hinv rws (le_refl rws) i
    omega

/-- Witness for C10 on the tridiagonal example. -/
theorem C10_band_access_safety_witness :
    (∀ i, i ≤ 3 → ∀ j, j + 1 - 2 ≤ (stateAt 3 2 aEx i).lwb j ∧
      (stateAt 3 2 aEx i).lwb j ≤ j) ∧
    (∀ i, i < 3 → ∀ j, (stateAt 3 2 aEx i).lwb i ≤ j → j < i →
      j < 3 ∧ 1 ≤ i - j ∧ i - j < 2) ∧
    (∀ i, i < 3 → ∀ j, i < j → j < min (i + 2) 3 →
      (1 ≤ j - i ∧ j - i < 2 ∧ j < 3) ∧
      (∀ k, max ((stateAt 3 2 aEx i).lwb i)
          ((stateAt 3 2 aEx i).lwb j) ≤ k → k < i →
        k < 3 ∧ 1 ≤ j - k ∧ j - k < 2 ∧ 1 ≤ i - k ∧ i - k < 2)) ∧
    (∀ i, i < 3 → ∀ j, (factorize 3 2 aEx).lwb i ≤ j → j < i →
      j < 3 ∧ 1 ≤ i - j ∧ i - j < 2) :=
  C10_band_access_safety 3 2 aEx (by decide) (by decide)

/-! Substitution phases of the two `solveLDLT` overloads.  The right-hand
side accesses go through the logical entries; the indices used are within
`[0, rws)` (see C10), so the source's checked `Vector::operator[]` never
raises there.  `j`-accumulation loops are written as `Finset` sums. -/

/-- Forward substitution (vector overload):
`rhs[i] -= Σ_{j ∈ [lwb i, i)} mat[j][i-j] * rhs[j]`, rows ascending. -/
def fwdSub (rws : ℕ) (f : FactState) (l : List ℚ) : List ℚ :=
  (List.range rws).foldl (fun l' i =>
    l'.set i (l'.getD i 0 -
      ∑ j in Finset.Ico (f.lwb i) i, f.mat j (i - j) * l'.getD j 0)) l

/-- Diagonal scaling (vector overload): `rhs[i] /= mat[i][0]`. -/
def diagScale (rws : ℕ) (f : FactState) (l : List ℚ) : List ℚ :=
  (List.range rws).foldl (fun l' i => l'.set i (l'.getD i 0 / f.mat i 0)) l

/-- Back substitution (vector overload):
`rhs[i] -= Σ_{j ∈ (i, min (i+cls) rws)} mat[i][j-i] * rhs[j]`, rows
descending. -/
def bwdSub (rws cls : ℕ) (f : FactState) (l : List ℚ) : List ℚ :=
  ((List.range rws).reverse).foldl (fun l' i =>
    l'.set i (l'.getD i 0 -
      ∑ j in Finset.Ico (i + 1) (min (i + cls) rws),
        f.mat i (j - i) * l'.getD j 0)) l

/-- Transcription of `Matrix::solveLDLT(Vector& rhs)`: precondition
checks, the factorization pass, then forward substitution, diagonal
scaling and back substitution on `rhs`.  Returns the factored matrix and
the solution vector (the two objects mutated in place by the source). -/
def Matrix.solveLDLT (a : Matrix) (rhs : Vector) :
    Except Err (Matrix × Vector) :=
  if a.rws < a.cls then .error .illegalArgument
  else if rhs.sz ≠ (a.rws : ℤ) then .error .illegalArgument
  else
    let f := factorize a.rws a.cls a.mat
    let l1 := fwdSub a.rws f rhs.va
    let l2 := diagScale a.rws f l1
    let l3 := bwdSub a.rws a.cls f l2
    .ok (⟨a.rws, a.cls, f.mat⟩, ⟨l3, rhs.sz⟩)

/-- Store of a full logical row `i` of the right-hand-side matrix:
`rhs(i, c) = h c` for `c < ncols`. -/
def updRow (g : ℕ → ℕ → ℚ) (i ncols : ℕ) (h : ℕ → ℚ) : ℕ → ℕ → ℚ :=
  fun r c => if r = i ∧ c < ncols then h c else g r c

/-- Forward substitution (matrix overload), per column. -/
def fwdSubM (rws ncols : ℕ) (f : FactState) (g : ℕ → ℕ → ℚ) :
    ℕ → ℕ → ℚ :=
  (List.range rws).foldl (fun g' i =>
    updRow g' i ncols (fun c => g' i c -
      ∑ j in Finset.Ico (f.lwb i) i, f.mat j (i - j) * g' j c)) g

/-- Diagonal scaling (matrix overload), per column. -/
def diagScaleM (rws ncols : ℕ) (f : FactState) (g : ℕ → ℕ → ℚ) :
    ℕ → ℕ → ℚ :=
  (List.range rws).foldl (fun g' i =>
    updRow g' i ncols (fun c => g' i c / f.mat i 0)) g

/-- Back substitution (matrix overload), per column, rows descending. -/
def bwdSubM (rws cls ncols : ℕ) (f : FactState) (g : ℕ → ℕ → ℚ) :
    ℕ → ℕ → ℚ :=
  ((List.range rws).reverse).foldl (fun g' i =>
    updRow g' i ncols (fun c => g' i c -
      ∑ j in Finset.Ico (i + 1) (min (i + cls) rws),
        f.mat i (j - i) * g' j c)) g

/-- Transcription of `Matrix::solveLDLT(Matrix& rhs)`: the identical
precondition checks and factorization pass, then the three substitution
phases applied to every column of `rhs`. -/
def Matrix.solveLDLTM (a : Matrix) (rhs : Matrix) :
    Except Err (Matrix × Matrix) :=
  if a.rws < a.cls then .error .illegalArgument
  else if rhs.rws ≠ a.rws then .error .illegalArgument
  else
    let f := factorize a.rws a.cls a.mat
    let g1 := fwdSubM a.rws rhs.cls f rhs.mat
    let g2 := diagScaleM a.rws rhs.cls f g1
    let g3 := bwdSubM a.rws a.cls rhs.cls f g2
    .ok (⟨a.rws, a.cls, f.mat⟩, ⟨rhs.rws, rhs.cls, g3⟩)

/-- C4: both overloads raise invalid-argument exactly when `rows < cols`
or the right-hand side's entry count (vector) or row count (matrix)
differs from `rows`; the checks precede every write, so on the error
path neither argument is touched, and when both preconditions hold no
invalid-argument is raised at entry. -/
theorem C4_precondition_checks (a : Matrix) (v : Vector) (r : Matrix) :
    ((a.rws < a.cls ∨ v.sz ≠ (a.rws : ℤ)) ↔
      a.solveLDLT v = Except.error Err.illegalArgument) ∧
    ((a.cls ≤ a.rws ∧ v.sz = (a.rws : ℤ)) ↔ (a.solveLDLT v).isOk) ∧
    ((a.rws < a.cls ∨ r.rws ≠ a.rws) ↔
      a.solveLDLTM r = Except.error Err.illegalArgument) ∧
    ((a.cls ≤ a.rws ∧ r.rws = a.rws) ↔ (a.solveLDLTM r).isOk) := by
  unfold Matrix.solveLDLT Matrix.solveLDLTM
  by_cases h1 : a.rws < a.cls
  · rw [if_pos h1, if_pos h1]
    simp only [Except.isOk, Except.toBool]
    refine ⟨⟨fun _ => trivial, fun _ => Or.inl h1⟩, ?_, ⟨fun _ => trivial,
      fun _ => Or.inl h1⟩, ?_⟩
    · constructor
      · intro hk
        omega
      · intro hk
        exact absurd hk (by simp)
    · constructor
      · intro hk
        omega
      · intro hk
        exact absurd hk (by simp)
  · rw [if_neg h1, if_neg h1]
    by_cases h2 : v.sz ≠ (a.rws : ℤ)
    · rw [if_pos h2]
      refine ⟨⟨fun _ => rfl, fun _ => Or.inr h2⟩, ?_, ?_⟩
      · simp only [Except.isOk, Except.toBool]
        constructor
        · intro hk
          exact absurd hk.2 h2
        · intro hk
          exact absurd hk (by simp)
      · by_cases h3 : r.rws ≠ a.rws
        · rw [if_pos h3]
          refine ⟨⟨fun _ => rfl, fun _ => Or.inr h3⟩, ?_⟩
          simp only [Except.isOk, Except.toBool]
          constructor
          · intro hk
            exact absurd hk.2 h3
          · intro hk
            exact absurd hk (by simp)
        · rw [if_neg h3]
          push_neg at h3
          refine ⟨⟨fun hh => ?_, fun hh => absurd hh (by simp)⟩, ?_⟩
          · rcases hh with hh | hh
            · omega
            · exact absurd h3 hh
          · simp only [Except.isOk, Except.toBool]
            exact ⟨fun _ => trivial, fun _ => ⟨by omega, h3⟩⟩
    · rw [if_neg h2]
      push_neg at h2
      refine ⟨⟨fun hh => ?_, fun hh => absurd hh (by simp)⟩, ?_, ?_⟩
      · rcases hh with hh | hh
        · omega
        · exact absurd h2 hh
      · simp only [Except.isOk, Except.toBool]
        exact ⟨fun _ => trivial, fun _ => ⟨by omega, h2⟩⟩
      · by_cases h3 : r.rws ≠ a.rws
        · rw [if_pos h3]
          refine ⟨⟨fun _ => rfl, fun _ => Or.inr h3⟩, ?_⟩
          simp only [Except.isOk, Except.toBool]
          constructor
          · intro hk
            exact absurd hk.2 h3
          · intro hk
            exact absurd hk (by simp)
        · rw [if_neg h3]
          push_neg at h3
          refine ⟨⟨fun hh => ?_, fun hh => absurd hh (by simp)⟩, ?_⟩
          · rcases hh with hh | hh
            · omega
            · exact absurd h3 hh
          · simp only [Except.isOk, Except.toBool]
            exact ⟨fun _ => trivial, fun _ => ⟨by omega, h3⟩⟩

/-- Witness for C4: a `1 × 2` banded matrix (rows < cols) is rejected. -/
theorem C4_precondition_checks_witness :
    Matrix.solveLDLT ⟨1, 2, fun _ _ => 0⟩ ⟨[0], 1⟩ =
      Except.error Err.illegalArgument :=
  (C4_precondition_checks ⟨1, 2, fun _ _ => 0⟩ ⟨[0], 1⟩
    ⟨1, 1, fun _ _ => 0⟩).1.mp (Or.inl (by decide))

lemma Matrix.rws_mk (r c : ℕ) (m : ℕ → ℕ → ℚ) :
    (Matrix.mk r c m).rws = r := rfl

lemma Matrix.cls_mk (r c : ℕ) (m : ℕ → ℕ → ℚ) :
    (Matrix.mk r c m).cls = c := rfl

lemma Matrix.entries_mk (r c : ℕ) (m : ℕ → ℕ → ℚ) :
    (Matrix.mk r c m).mat = m := rfl

lemma set_getD_self (l : List ℚ) (i : ℕ) (hi : i < l.length) :
    l.set i (l.getD i 0) = l := by
  apply List.ext_getElem?
  intro n
  rw [List.getElem?_set]
  split
  · rename_i h
    subst h
    rw [List.getD_eq_getElem?_getD, List.getElem?_eq_getElem hi]
    rfl
  · rfl

/-- With bandwidth 1 the factorization pass changes nothing: every `lwb`
range and every band window is empty, and the diagonal store rewrites
each `mat[i][0]` with its own value. -/
lemma stateAt_diag (rws : ℕ) (a : ℕ → ℕ → ℚ) :
    ∀ i, i ≤ rws → (∀ r c, (stateAt rws 1 a i).mat r c = a r c) ∧
      (∀ j, (stateAt rws 1 a i).lwb j = initLwb 1 j) := by
  intro i
  induction i with
  | zero => exact fun _ => ⟨fun r c => rfl, fun j => rfl⟩
  | succ i ih =>
    intro hle
    obtain ⟨ihm, ihl⟩ := ih (by omega)
    constructor
    · intro r c
      rw [stateAt_succ, rowStep_mat rws 1 (le_refl 1) _ i (by omega)]
      by_cases h1 : r = i ∧ c = 0
      · rw [if_pos h1]
        have hlwbi : (stateAt rws 1 a i).lwb i = i := by
          rw [ihl]
          unfold initLwb
          split <;> omega
        unfold ddOf
        rw [hlwbi, Finset.Ico_self, Finset.sum_empty, ihm, sub_zero]
        obtain ⟨hr, hc⟩ := h1
        rw [hr, hc]
      · rw [if_neg h1, if_neg (by omega), ihm]
    · intro j
      rw [stateAt_succ, rowStep_lwb rws 1 (le_refl 1) _ i (by omega),
        if_neg (by omega), ihl]

/-- A fold of single-position scalings over distinct in-range indices:
each touched entry is divided once, everything else is unchanged. -/
lemma foldl_scale (d : ℕ → ℚ) (is : List ℕ) (l : List ℚ)
    (hnd : is.Nodup) (his : ∀ i ∈ is, i < l.length) :
    ((is.foldl (fun l' i => l'.set i (l'.getD i 0 / d i)) l).length =
      l.length) ∧
    (∀ i : ℕ, (is.foldl (fun l' i => l'.set i (l'.getD i 0 / d i)) l).getD
        i 0 = if i ∈ is then l.getD i 0 / d i else l.getD i 0) := by
  induction is generalizing l with
  | nil =>
    refine ⟨rfl, fun i => ?_⟩
    rw [if_neg (List.not_mem_nil i)]
    rfl
  | cons x xs ih =>
    rw [List.foldl_cons]
    have hx : x < l.length := his x (by simp)
    have hnd' := List.nodup_cons.mp hnd
    obtain ⟨hlen, hget⟩ := ih (l.set x (l.getD x 0 / d x)) hnd'.2 (by
      intro i hi
      rw [List.length_set]
      exact his i (by simp [hi]))
    refine ⟨by rw [hlen, List.length_set], ?_⟩
    intro i
    rw [hget i]
    by_cases hix : i = x
    · subst hix
      rw [if_neg hnd'.1, if_pos (by simp)]
      rw [List.getD_eq_getElem?_getD, List.getElem?_set_self hx]
      rfl
    · have hset : (l.set x (l.getD x 0 / d x)).getD i 0 = l.getD i 0 := by
        rw [List.getD_eq_getElem?_getD,
          List.getElem?_set_ne (fun h => hix h.symm),
          ← List.getD_eq_getElem?_getD]
      rw [hset]
      by_cases hmem : i ∈ xs
      · rw [if_pos hmem, if_pos (by simp [hmem])]
      · rw [if_neg hmem, if_neg (by simp [hix, hmem])]

/-- C2: with `cols = 1` (pure diagonal), `solveLDLT` leaves every
diagonal entry unchanged and maps the right-hand side to
`rhs[i] / A[i][0]`: the substitution loops and the off-diagonal updates
are all empty. -/
theorem C2_diagonal_solve (rws : ℕ) (hr : 1 ≤ rws) (a : ℕ → ℕ → ℚ)
    (rhs : Vector) (hrv : rhs.Inv) (hsz : rhs.sz = (rws : ℤ)) :
    ∃ F x, Matrix.solveLDLT ⟨rws, 1, a⟩ rhs = Except.ok (F, x) ∧
      (∀ i, i < rws → F.mat i 0 = a i 0) ∧
      x.sz = rhs.sz ∧
      (∀ i, i < rws → x.va.getD i 0 = rhs.va.getD i 0 / a i 0) := by
  have hlen : rws ≤ rhs.va.length := by
    obtain ⟨h1, h2⟩ := hrv
    have hcap : rhs.cap = (rhs.va.length : ℤ) := rfl
    omega
  have hfm : ∀ r c, (factorize rws 1 a).mat r c = a r c :=
    (stateAt_diag rws a rws (le_refl rws)).1
  have hfl : ∀ j, (factorize rws 1 a).lwb j = initLwb 1 j :=
    (stateAt_diag rws a rws (le_refl rws)).2
  have hicoEmpty : ∀ x : ℕ, Finset.Ico ((factorize rws 1 a).lwb x) x = ∅ := by
    intro x
    rw [hfl]
    unfold initLwb
    split
    · have hx : x = 0 := by omega
      rw [hx]
      exact Finset.Ico_self 0
    · have hx : x - 1 + 1 = x := by omega
      rw [hx, Finset.Ico_self]
  have hfwd : ∀ (is : List ℕ) (l : List ℚ), (∀ i ∈ is, i < l.length) →
      is.foldl (fun l' i => l'.set i (l'.getD i 0 -
        ∑ j in Finset.Ico ((factorize rws 1 a).lwb i) i,
          (factorize rws 1 a).mat j (i - j) * l'.getD j 0)) l = l := by
    intro is
    induction is with
    | nil => intro l _; rfl
    | cons x xs ih =>
      intro l hbound
      rw [List.foldl_cons, hicoEmpty x, Finset.sum_empty, sub_zero,
        set_getD_self l x (hbound x (by simp))]
      exact ih l (fun i hi => hbound i (by simp [hi]))
  have hbwd : ∀ (is : List ℕ) (l : List ℚ),
      (∀ i ∈ is, i < l.length ∧ i < rws) →
      is.foldl (fun l' i => l'.set i (l'.getD i 0 -
        ∑ j in Finset.Ico (i + 1) (min (i + 1) rws),
          (factorize rws 1 a).mat i (j - i) * l'.getD j 0)) l = l := by
    intro is
    induction is with
    | nil => intro l _; rfl
    | cons x xs ih =>
      intro l hbound
      have hxe : Finset.Ico (x + 1) (min (x + 1) rws) = ∅ := by
        have hx : min (x + 1) rws = x + 1 := by
          have := (hbound x (by simp)).2
          omega
        rw [hx, Finset.Ico_self]
      rw [List.foldl_cons, hxe, Finset.sum_empty, sub_zero,
        set_getD_self l x (hbound x (by simp)).1]
      exact ih l (fun i hi => hbound i (by simp [hi]))
  have hfwd' : fwdSub rws (factorize rws 1 a) rhs.va = rhs.va :=
    hfwd (List.range rws) rhs.va (by
      intro i hi
      rw [List.mem_range] at hi
      omega)
  have hscale := foldl_scale (fun i => (factorize rws 1 a).mat i 0)
    (List.range rws) rhs.va (List.nodup_range rws) (by
      intro i hi
      rw [List.mem_range] at hi
      omega)
  have hscale_eq : diagScale rws (factorize rws 1 a)
      (fwdSub rws (factorize rws 1 a) rhs.va) =
      (List.range rws).foldl (fun l' i => l'.set i (l'.getD i 0 /
        (fun i => (factorize rws 1 a).mat i 0) i)) rhs.va := by
    rw [hfwd']
    rfl
  have hbwd' : bwdSub rws 1 (factorize rws 1 a)
      (diagScale rws (factorize rws 1 a)
        (fwdSub rws (factorize rws 1 a) rhs.va)) =
      diagScale rws (factorize rws 1 a)
        (fwdSub rws (factorize rws 1 a) rhs.va) := by
    refine hbwd ((List.range rws).reverse) _ ?_
    intro i hi
    rw [List.mem_reverse, List.mem_range] at hi
    rw [hscale_eq, hscale.1]
    exact ⟨by omega, hi⟩
  have hsolve : Matrix.solveLDLT ⟨rws, 1, a⟩ rhs =
      Except.ok (⟨rws, 1, (factorize rws 1 a).mat⟩,
        ⟨bwdSub rws 1 (factorize rws 1 a)
          (diagScale rws (factorize rws 1 a)
            (fwdSub rws (factorize rws 1 a) rhs.va)), rhs.sz⟩) := by
    unfold Matrix.solveLDLT
    rw [if_neg (show ¬ ((⟨rws, 1, a⟩ : Matrix).rws < (⟨rws, 1, a⟩ : Matrix).cls)
      from by
        rw [Matrix.rws_mk, Matrix.cls_mk]
        omega)]
    rw [if_neg (show ¬ (rhs.sz ≠ (((⟨rws, 1, a⟩ : Matrix).rws : ℕ) : ℤ))
      from by
        rw [Matrix.rws_mk]
        omega)]
  refine ⟨_, _, hsolve, ?_, rfl, ?_⟩
  · intro i _
    exact hfm i 0
  · intro i hi
    show (bwdSub rws 1 (factorize rws 1 a)
      (diagScale rws (factorize rws 1 a)
        (fwdSub rws (factorize rws 1 a) rhs.va))).getD i 0 = _
    rw [hbwd', hscale_eq, hscale.2 i, if_pos (List.mem_range.mpr hi)]
    show rhs.va.getD i 0 / (factorize rws 1 a).mat i 0 = _
    rw [hfm i 0]

/-- Witness for C2 on the diagonal matrix `diag(2, 4)` and `rhs=[1, 2]`. -/
theorem C2_diagonal_solve_witness :
    ∃ F x, Matrix.solveLDLT ⟨2, 1, fun r _ => 2 * r + 2⟩ ⟨[1, 2], 2⟩ =
        Except.ok (F, x) ∧
      (∀ i, i < 2 → F.mat i 0 = (fun r _ => 2 * (r : ℚ) + 2) i 0) ∧
      x.sz = (Vector.mk [1, 2] 2).sz ∧
      (∀ i, i < 2 → x.va.getD i 0 =
        (Vector.mk [1, 2] 2).va.getD i 0 / (fun r _ => 2 * (r : ℚ) + 2) i 0) :=
  C2_diagonal_solve 2 (by decide) (fun r _ => 2 * r + 2) ⟨[1, 2], 2⟩
    (by decide) (by decide)

lemma updRow_apply (g : ℕ → ℕ → ℚ) (i ncols : ℕ) (h : ℕ → ℚ) (r c : ℕ) :
    updRow g i ncols h r c = if r = i ∧ c < ncols then h c else g r c := rfl

/-- A vector-state fold and a matrix-state fold driven by the same
per-row update function `Φ` stay in column-`k` agreement: the matrix
fold restricted to any column `k < ncols` is exactly the vector fold on
that column. -/
lemma foldl_colwise (rws ncols k : ℕ) (hk : k < ncols)
    (Φ : ℕ → (ℕ → ℚ) → ℚ)
    (hΦ : ∀ i, i < rws → ∀ v w : ℕ → ℚ,
      (∀ j, j < rws → v j = w j) → Φ i v = Φ i w)
    (is : List ℕ) (l : List ℚ) (g : ℕ → ℕ → ℚ)
    (hlen : l.length = rws)
    (hrel : ∀ i, i < rws → l.getD i 0 = g i k)
    (his : ∀ i ∈ is, i < rws) :
    ((is.foldl (fun l' i => l'.set i (Φ i (fun j => l'.getD j 0))) l).length
      = rws) ∧
    (∀ i, i < rws →
      (is.foldl (fun l' i =>
        l'.set i (Φ i (fun j => l'.getD j 0))) l).getD i 0 =
      (is.foldl (fun g' i =>
        updRow g' i ncols (fun c => Φ i (fun j => g' j c))) g) i k) := by
  revert his
  induction is generalizing l g with
  | nil => intro _; exact ⟨hlen, hrel⟩
  | cons x xs ih =>
    intro his
    rw [List.foldl_cons, List.foldl_cons]
    have hx : x < rws := his x (by simp)
    refine ih (l.set x (Φ x fun j => l.getD j 0))
      (updRow g x ncols (fun c => Φ x fun j => g j c))
      (by rw [List.length_set, hlen]) ?_ (fun i hi => his i (by simp [hi]))
    intro i hi
    by_cases hix : i = x
    · subst hix
      rw [updRow_apply, if_pos ⟨rfl, hk⟩]
      rw [List.getD_eq_getElem?_getD, List.getElem?_set_self (by omega)]
      show Φ i (fun j => l.getD j 0) = Φ i (fun j => g j k)
      exact hΦ i hi _ _ (fun j hj => hrel j hj)
    · rw [updRow_apply, if_neg (by
        rintro ⟨h1, _⟩
        exact hix h1)]
      rw [List.getD_eq_getElem?_getD,
        List.getElem?_set_ne (fun h => hix h.symm),
        ← List.getD_eq_getElem?_getD]
      exact hrel i hi

/-- Column `k` of a right-hand-side matrix as a fresh `Vector`. -/
def colOf (r : Matrix) (k : ℕ) : Vector :=
  ⟨(List.range r.rws).map (fun i => r.mat i k), (r.rws : ℤ)⟩

/-- C3: the matrix overload of `solveLDLT` produces in each column `j`
of the right-hand side exactly what the vector overload produces on a
vector holding column `j` of the original right-hand side, and both
leave the identical L/D factors (the two overloads run the same
factorization pass). -/
theorem C3_overload_equivalence (a rhs : Matrix) (h2 : a.cls ≤ a.rws)
    (hr : rhs.rws = a.rws) (k : ℕ) (hk : k < rhs.cls) :
    ∃ F R' x, a.solveLDLTM rhs = Except.ok (F, R') ∧
      a.solveLDLT (colOf rhs k) = Except.ok (F, x) ∧
      x.sz = (a.rws : ℤ) ∧
      (∀ i, i < a.rws → x.va.getD i 0 = R'.mat i k) := by
  have hsolveM : a.solveLDLTM rhs = Except.ok
      (⟨a.rws, a.cls, (factorize a.rws a.cls a.mat).mat⟩,
       ⟨rhs.rws, rhs.cls, bwdSubM a.rws a.cls rhs.cls
          (factorize a.rws a.cls a.mat)
          (diagScaleM a.rws rhs.cls (factorize a.rws a.cls a.mat)
            (fwdSubM a.rws rhs.cls (factorize a.rws a.cls a.mat)
              rhs.mat))⟩) := by
    unfold Matrix.solveLDLTM
    rw [if_neg (by omega), if_neg (by omega)]
  have hcs : (colOf rhs k).sz = ((a.rws : ℕ) : ℤ) := by
    show ((rhs.rws : ℕ) : ℤ) = _
    rw [hr]
  have hsolveV : a.solveLDLT (colOf rhs k) = Except.ok
      (⟨a.rws, a.cls, (factorize a.rws a.cls a.mat).mat⟩,
       ⟨bwdSub a.rws a.cls (factorize a.rws a.cls a.mat)
          (diagScale a.rws (factorize a.rws a.cls a.mat)
            (fwdSub a.rws (factorize a.rws a.cls a.mat) (colOf rhs k).va)),
        (colOf rhs k).sz⟩) := by
    unfold Matrix.solveLDLT
    rw [if_neg (by omega), if_neg (by
      rw [hcs]
      omega)]
  have hlen0 : (colOf rhs k).va.length = a.rws := by
    show ((List.range rhs.rws).map _).length = a.rws
    rw [List.length_map, List.length_range, hr]
  have hrel0 : ∀ i, i < a.rws → (colOf rhs k).va.getD i 0 = rhs.mat i k := by
    intro i hi
    show ((List.range rhs.rws).map _).getD i 0 = _
    rw [List.getD_eq_getElem?_getD, List.getElem?_map,
      List.getElem?_range (by omega)]
    rfl
  have hfwd := foldl_colwise a.rws rhs.cls k hk
    (fun i v => v i - ∑ j in Finset.Ico
      ((factorize a.rws a.cls a.mat).lwb i) i,
      (factorize a.rws a.cls a.mat).mat j (i - j) * v j)
    (by
      intro i hi v w hvw
      show v i - ∑ j in Finset.Ico
          ((factorize a.rws a.cls a.mat).lwb i) i,
          (factorize a.rws a.cls a.mat).mat j (i - j) * v j =
        w i - ∑ j in Finset.Ico
          ((factorize a.rws a.cls a.mat).lwb i) i,
          (factorize a.rws a.cls a.mat).mat j (i - j) * w j
      have h1 : ∑ j in Finset.Ico ((factorize a.rws a.cls a.mat).lwb i) i,
          (factorize a.rws a.cls a.mat).mat j (i - j) * v j =
          ∑ j in Finset.Ico ((factorize a.rws a.cls a.mat).lwb i) i,
          (factorize a.rws a.cls a.mat).mat j (i - j) * w j := by
        refine Finset.sum_congr rfl ?_
        intro j hj
        rw [Finset.mem_Ico] at hj
        rw [hvw j (by omega)]
      rw [hvw i hi, h1])
    (List.range a.rws) (colOf rhs k).va rhs.mat hlen0 hrel0
    (by
      intro i hi
      rw [List.mem_range] at hi
      exact hi)
  have hscale := foldl_colwise a.rws rhs.cls k hk
    (fun i v => v i / (factorize a.rws a.cls a.mat).mat i 0)
    (by
      intro i hi v w hvw
      show v i / (factorize a.rws a.cls a.mat).mat i 0 =
        w i / (factorize a.rws a.cls a.mat).mat i 0
      rw [hvw i hi])
    (List.range a.rws)
    (fwdSub a.rws (factorize a.rws a.cls a.mat) (colOf rhs k).va)
    (fwdSubM a.rws rhs.cls (factorize a.rws a.cls a.mat) rhs.mat)
    hfwd.1 hfwd.2
    (by
      intro i hi
      rw [List.mem_range] at hi
      exact hi)
  have hbwd := foldl_colwise a.rws rhs.cls k hk
    (fun i v => v i - ∑ j in Finset.Ico (i + 1) (min (i + a.cls) a.rws),
      (factorize a.rws a.cls a.mat).mat i (j - i) * v j)
    (by
      intro i hi v w hvw
      show v i - ∑ j in Finset.Ico (i + 1) (min (i + a.cls) a.rws),
          (factorize a.rws a.cls a.mat).mat i (j - i) * v j =
        w i - ∑ j in Finset.Ico (i + 1) (min (i + a.cls) a.rws),
          (factorize a.rws a.cls a.mat).mat i (j - i) * w j
      have h1 : ∑ j in Finset.Ico (i + 1) (min (i + a.cls) a.rws),
          (factorize a.rws a.cls a.mat).mat i (j - i) * v j =
          ∑ j in Finset.Ico (i + 1) (min (i + a.cls) a.rws),
          (factorize a.rws a.cls a.mat).mat i (j - i) * w j := by
        refine Finset.sum_congr rfl ?_
        intro j hj
        rw [Finset.mem_Ico] at hj
        rw [hvw j (lt_of_lt_of_le hj.2 (min_le_right _ _))]
      rw [hvw i hi, h1])
    ((List.range a.rws).reverse)
    (diagScale a.rws (factorize a.rws a.cls a.mat)
      (fwdSub a.rws (factorize a.rws a.cls a.mat) (colOf rhs k).va))
    (diagScaleM a.rws rhs.cls (factorize a.rws a.cls a.mat)
      (fwdSubM a.rws rhs.cls (factorize a.rws a.cls a.mat) rhs.mat))
    hscale.1 hscale.2
    (by
      intro i hi
      rw [List.mem_reverse, List.mem_range] at hi
      exact hi)
  refine ⟨_, _, _, hsolveM, hsolveV, hcs, ?_⟩
  intro i hi
  exact hbwd.2 i hi

/-- Witness for C3 on the tridiagonal example with a two-column
right-hand side, at column `k = 1`. -/
theorem C3_overload_equivalence_witness :
    ∃ F R' x, Matrix.solveLDLTM ⟨3, 2, aEx⟩
        ⟨3, 2, fun r c => (r : ℚ) + 3 * c + 1⟩ = Except.ok (F, R') ∧
      Matrix.solveLDLT ⟨3, 2, aEx⟩
        (colOf ⟨3, 2, fun r c => (r : ℚ) + 3 * c + 1⟩ 1) = Except.ok (F, x) ∧
      x.sz = ((3 : ℕ) : ℤ) ∧
      (∀ i, i < 3 → x.va.getD i 0 = R'.mat i 1) :=
  C3_overload_equivalence ⟨3, 2, aEx⟩ ⟨3, 2, fun r c => (r : ℚ) + 3 * c + 1⟩
    (by decide) (by decide) 1 (by decide)

end Ino
